import Mathlib

/-!
Verification of the COL/VAL tokenized-record parser and the two-pass
CSV-conversion pipeline of the entity-matching dataset converters
(`Converters/computers/walmart.py` and `Converters/computers/dcm.py`).

Strings are embedded as `List Char`.  The regular expression
`\bCOL\s+([A-Za-z0-9_]+)\s+VAL\b` (compiled with IGNORECASE) is embedded as the
deterministic matcher `tryTriple`: because the character classes of adjacent
pieces of the pattern are disjoint (word characters vs whitespace) and `VAL`
consists of word characters, a match attempt at a given position never needs
backtracking, so greedy maximal runs give exactly Python's match.
`re.finditer` is embedded as the left-to-right non-overlapping scanner
`scanAux`, which tracks whether the previous character is a word character in
order to decide the `\b` boundary (a match can only start at `C`, a word
character, so a preceding word character forbids it).
-/

/-- Python `\s` / `str.strip()` whitespace, ASCII range. -/
def isPySpace (c : Char) : Bool :=
  c = ' ' || c = '\t' || c = '\n' || c = '\r' || c = '\x0b' || c = '\x0c'

/-- The character class `[A-Za-z0-9_]` of the field-name group (also Python
`\w` on ASCII input, which decides the `\b` boundaries). -/
def isWordChar (c : Char) : Bool :=
  c.isAlpha || c.isDigit || c = '_'

/-- The characters of Python `str.strip(' |;,:')` used on extracted values. -/
def isSepChar (c : Char) : Bool :=
  c = ' ' || c = '|' || c = ';' || c = ',' || c = ':'

/-- Separator characters as the spec words them: pipe, semicolon, comma,
colon and plain whitespace. -/
def isSepOrSpace (c : Char) : Bool :=
  isPySpace c || c = '|' || c = ';' || c = ',' || c = ':'

/-- Shorthand turning a Lean string literal into the `List Char` embedding. -/
def s2l (s : String) : List Char := s.data

/-- Drop the longest suffix whose characters all satisfy `p`
(the right-hand half of Python `str.strip`). -/
def dropEnd (p : Char → Bool) : List Char → List Char
  | [] => []
  | c :: cs =>
    if (dropEnd p cs).isEmpty then (if p c then [] else [c]) else c :: dropEnd p cs

/-- Python `str.strip()`: whitespace removed from both ends. -/
def pyStrip (l : List Char) : List Char :=
  dropEnd isPySpace (l.dropWhile isPySpace)

/-- Python `str.strip(' |;,:')`. -/
def stripSeps (l : List Char) : List Char :=
  dropEnd isSepChar (l.dropWhile isSepChar)

/-- Stripping leading/trailing separator-or-whitespace characters, as the
spec describes the value clean-up. -/
def stripSpec (l : List Char) : List Char :=
  dropEnd isSepOrSpace (l.dropWhile isSepOrSpace)

/-- `re.sub(r'\s+', ' ', ·)`: every maximal whitespace run becomes one space.
The flag records whether the previously emitted character came from a
whitespace run that is still open. -/
def collapseWSAux : Bool → List Char → List Char
  | _, [] => []
  | b, c :: cs =>
    if isPySpace c then
      if b then collapseWSAux true cs else ' ' :: collapseWSAux true cs
    else c :: collapseWSAux false cs

/-- `re.sub(r'\s+', ' ', ·)` on a whole string. -/
def collapseWS (l : List Char) : List Char := collapseWSAux false l

/-- The value clean-up of `robust_parse_col_val`:
`text[start:end].strip()`, then `re.sub(r'\s+', ' ', val)`, then
`.strip(' |;,:')`. -/
def cleanVal (v : List Char) : List Char :=
  stripSeps (collapseWS (pyStrip v))

/-- The value clean-up as the spec words it: collapse whitespace runs to a
single space, then strip leading/trailing separator characters
(pipe, semicolon, comma, colon, plain whitespace). -/
def specClean (v : List Char) : List Char :=
  stripSpec (collapseWS v)

/-- Lowercasing of a field name (`key.strip().lower()`; the name group has no
whitespace, so only the lowercasing is observable). -/
def lowerList (l : List Char) : List Char := l.map Char.toLower

/-- Case-insensitive literal match: if `s` starts with `pat` (given in
lowercase) return the remainder. -/
def stripCI : List Char → List Char → Option (List Char)
  | [], s => some s
  | _ :: _, [] => none
  | p :: ps, c :: cs => if c.toLower = p then stripCI ps cs else none

/-- One attempt of the pattern `COL\s+([A-Za-z0-9_]+)\s+VAL\b` (IGNORECASE) at
the start of `s` (the leading `\b` is the scanner's concern).  Returns the
length of the whole match together with the raw name group.  Greedy maximal
runs are exact here: word characters and whitespace are disjoint, so Python
finds a match at this position exactly when this function does. -/
def tryTriple (s : List Char) : Option (Nat × List Char) :=
  match stripCI ['c', 'o', 'l'] s with
  | none => none
  | some r1 =>
    let w1 := r1.takeWhile isPySpace
    let r2 := r1.dropWhile isPySpace
    if w1.isEmpty then none else
    let nm := r2.takeWhile isWordChar
    let r3 := r2.dropWhile isWordChar
    if nm.isEmpty then none else
    let w2 := r3.takeWhile isPySpace
    let r4 := r3.dropWhile isPySpace
    if w2.isEmpty then none else
    match stripCI ['v', 'a', 'l'] r4 with
    | none => none
    | some r5 =>
      match r5 with
      | [] => some (3 + w1.length + nm.length + w2.length + 3, nm)
      | c :: _ =>
        if isWordChar c then none
        else some (3 + w1.length + nm.length + w2.length + 3, nm)

/-- `re.finditer` scan: try a match at every position from left to right,
skipping over a found match (non-overlapping).  `prevW` says whether the
character before `pos` is a word character; the pattern starts with the word
character `C`, so `\b` forbids a match when `prevW` is set.  Each step either
advances one character or swallows a whole match, so `text.length + 1` fuel
suffices. -/
def scanAux (text : List Char) : Nat → Nat → Bool → List (Nat × Nat × List Char)
  | 0, _, _ => []
  | fuel + 1, pos, prevW =>
    match text.drop pos with
    | [] => []
    | c :: _ =>
      if prevW then scanAux text fuel (pos + 1) (isWordChar c)
      else
        match tryTriple (text.drop pos) with
        | some (len, nm) => (pos, pos + len, nm) :: scanAux text fuel (pos + len) true
        | none => scanAux text fuel (pos + 1) (isWordChar c)

/-- All matches of `FIELD_RE` in `text`, as `(start, end, raw name)`. -/
def findMatches (text : List Char) : List (Nat × Nat × List Char) :=
  scanAux text (text.length + 1) 0 false

/-- `text[a:b]` for `a ≤ b` (Python slicing). -/
def sliceStr (text : List Char) (a b : Nat) : List Char :=
  (text.drop a).take (b - a)

/-- Python `record[key] = val` on an insertion-ordered dict: overwrite in
place if the key is present, else append. -/
def insertLV (k v : List Char) : List (List Char × List Char) → List (List Char × List Char)
  | [] => [(k, v)]
  | (k0, v0) :: rest => if k0 = k then (k0, v) :: rest else (k0, v0) :: insertLV k v rest

/-- The loop body of `robust_parse_col_val`: for each match, the value runs
from the end of the match to the start of the next one (or end of string). -/
def buildRecord (text : List Char) : List (Nat × Nat × List Char) →
    List (List Char × List Char) → List (List Char × List Char)
  | [], acc => acc
  | m :: rest, acc =>
    let endPos := match rest with | [] => text.length | m2 :: _ => m2.1
    buildRecord text rest (insertLV (lowerList m.2.2) (cleanVal (sliceStr text m.2.1 endPos)) acc)

/-- `robust_parse_col_val` of `walmart.py` / `dcm.py`. -/
def robust_parse_col_val (text : List Char) : List (List Char × List Char) :=
  buildRecord text (findMatches text) []

/-- First-match lookup in an association list (Python dict lookup; keys are
unique there, so first is the only one). -/
def lookupAssoc (k : List Char) : List (List Char × List Char) → Option (List Char)
  | [] => none
  | (k0, v0) :: rest => if k0 = k then some v0 else lookupAssoc k rest

/-- `m.get(k, "")`. -/
def getD (k : List Char) (m : List (List Char × List Char)) : List Char :=
  (lookupAssoc k m).getD []

example :
    robust_parse_col_val (s2l "COL title VAL Has COLORFUL Cover COL year VAL 2007") =
      [(s2l "title", s2l "Has COLORFUL Cover"), (s2l "year", s2l "2007")] := by decide

example :
    robust_parse_col_val (s2l "COL a VAL x COL b VAL y COL a VAL z") =
      [(s2l "a", s2l "z"), (s2l "b", s2l "y")] := by decide

example :
    robust_parse_col_val (s2l "COL a VAL | x \t y ; COL b VAL 2 , ") =
      [(s2l "a", s2l "x y"), (s2l "b", s2l "2")] := by decide

/-!
The two-pass pipeline `parse_tabbed_file`.  A raw line is stripped
(`raw.strip()`) and split on runs of tabs (`re.split(r'\t+', line)`); a line
is kept only when it is non-blank and splits into exactly three parts.
-/

mutual

/-- `re.split(r'\t+', ·)`, part 1: accumulating the current chunk
(in reverse). -/
def tabSplitAux : List Char → List Char → List (List Char)
  | cur, [] => [cur.reverse]
  | cur, c :: rest =>
    if c = '\t' then cur.reverse :: tabSplitSkip rest else tabSplitAux (c :: cur) rest

/-- `re.split(r'\t+', ·)`, part 2: inside a run of tabs. -/
def tabSplitSkip : List Char → List (List Char)
  | [] => [[]]
  | c :: rest => if c = '\t' then tabSplitSkip rest else tabSplitAux [c] rest

end

/-- `re.split(r'\t+', line)`: runs of consecutive tabs act as one
delimiter. -/
def tabSplit (l : List Char) : List (List Char) := tabSplitAux [] l

/-- The per-line admission test shared by both passes: strip the raw line,
skip it when blank, and require exactly three tab-run-separated parts. -/
def splitLine (raw : List Char) : Option (List Char × List Char × List Char) :=
  let line := pyStrip raw
  if line.isEmpty then none
  else
    match tabSplit line with
    | [l, r, lab] => some (l, r, lab)
    | _ => none

/-- Digit tail of Python `int(str)` after the first digit: digits, with
single underscores allowed between digits. -/
def intDigitsAux : List Char → Nat → Option Nat
  | [], acc => some acc
  | c :: rest, acc =>
    if c.isDigit then intDigitsAux rest (acc * 10 + (c.toNat - 48))
    else if c = '_' then
      match rest with
      | [] => none
      | d :: rest2 =>
        if d.isDigit then intDigitsAux rest2 (acc * 10 + (d.toNat - 48)) else none
    else none

/-- Python `int(label)` on ASCII input: optional surrounding whitespace, an
optional sign, then at least one digit (underscores allowed between
digits).  `none` models the `ValueError` branch. -/
def parseIntPy (l : List Char) : Option Int :=
  match pyStrip l with
  | [] => none
  | '+' :: rest =>
    match rest with
    | [] => none
    | d :: rest2 =>
      if d.isDigit then (intDigitsAux rest2 (d.toNat - 48)).map (fun n => (n : Int)) else none
  | '-' :: rest =>
    match rest with
    | [] => none
    | d :: rest2 =>
      if d.isDigit then (intDigitsAux rest2 (d.toNat - 48)).map (fun n => -(n : Int)) else none
  | d :: rest2 =>
    if d.isDigit then (intDigitsAux rest2 (d.toNat - 48)).map (fun n => (n : Int)) else none

/-- The field names of one record, `robust_parse_col_val(text).keys()`. -/
def keysOf (text : List Char) : List (List Char) :=
  (robust_parse_col_val text).map Prod.fst

/-- Adding one element to the model of the Python set `all_fields` (a
duplicate-free list; insertion position is irrelevant after sorting). -/
def setInsert (s : List (List Char)) (x : List Char) : List (List Char) :=
  if x ∈ s then s else s ++ [x]

/-- `all_fields.update(keys)`. -/
def setInsertAll (s : List (List Char)) (xs : List (List Char)) : List (List Char) :=
  xs.foldl setInsert s

/-- One step of the first pass of `parse_tabbed_file`: a well-formed line
contributes the field names of both its sides; its label is never looked
at. -/
def fieldStep (acc : List (List Char)) (raw : List Char) : List (List Char) :=
  match splitLine raw with
  | none => acc
  | some (l, r, _) => setInsertAll (setInsertAll acc (keysOf l)) (keysOf r)

/-- First pass of `parse_tabbed_file`: union of all field names over every
well-formed line. -/
def allFieldsOf (lines : List (List Char)) : List (List Char) :=
  lines.foldl fieldStep []

/-- Python string comparison `a < b`: lexicographic by code point, a strict
prefix sorting first. -/
def lexLt : List Char → List Char → Bool
  | [], [] => false
  | [], _ :: _ => true
  | _ :: _, [] => false
  | a :: as0, b :: bs0 =>
    if a.toNat < b.toNat then true
    else if b.toNat < a.toNat then false
    else lexLt as0 bs0

/-- Insertion into a `lexLt`-sorted list. -/
def insSorted (a : List Char) : List (List Char) → List (List Char)
  | [] => [a]
  | b :: bs0 => if lexLt b a then b :: insSorted a bs0 else a :: b :: bs0

/-- Python `sorted(·)` on a duplicate-free collection of field names: the
unique enumeration that is ascending in `lexLt`. -/
def sortLex (l : List (List Char)) : List (List Char) := l.foldr insSorted []

/-- The `ordered_fields` computation: under a truthy `preferred_order`, the
members of `preferred_order` that were discovered, in the given order,
followed by the remaining discovered fields sorted; otherwise the sorted
discovered set. -/
def orderSchema (po : Option (List (List Char))) (s : List (List Char)) : List (List Char) :=
  match po with
  | none => sortLex s
  | some p0 =>
    if p0.isEmpty then sortLex s
    else
      let p := p0.filter (fun f => decide (f ∈ s))
      p ++ sortLex (s.filter (fun f => decide (¬ f ∈ p)))

/-- Schema of a dataset: first pass, then ordering. -/
def orderedFields (lines : List (List Char)) (po : Option (List (List Char))) :
    List (List Char) :=
  orderSchema po (allFieldsOf lines)

/-- One output row: `{'id': row_id, 'label': label, 'left_<f>': ...,
'right_<f>': ...}`. -/
structure Row where
  id : Nat
  label : Int
  cols : List (List Char × List Char)
  deriving DecidableEq, Repr

/-- Column name `'left_' + f`. -/
def leftCol (f : List Char) : List Char := s2l "left_" ++ f

/-- Column name `'right_' + f`. -/
def rightCol (f : List Char) : List Char := s2l "right_" ++ f

/-- The field columns of one row: for every schema field, the left value then
the right value, `""` when the tokenizer did not produce the field. -/
def mkCols (lm rm : List (List Char × List Char)) : List (List Char) → List (List Char × List Char)
  | [] => []
  | f :: fs => (leftCol f, getD f lm) :: (rightCol f, getD f rm) :: mkCols lm rm fs

/-- Assembling one kept row from its parts. -/
def makeRow (fields : List (List Char)) (rid : Nat) (lab : Int) (l r : List Char) : Row :=
  ⟨rid, lab, mkCols (robust_parse_col_val l) (robust_parse_col_val r) fields⟩

/-- Second pass of `parse_tabbed_file`: skip blank/malformed lines and lines
with an unparseable label (neither consumes a row id); keep the rest with
consecutive ids. -/
def pass2 (fields : List (List Char)) : List (List Char) → Nat → List Row
  | [], _ => []
  | raw :: rest, rid =>
    match splitLine raw with
    | none => pass2 fields rest rid
    | some (l, r, lab) =>
      match parseIntPy lab with
      | none => pass2 fields rest rid
      | some n => makeRow fields rid n l r :: pass2 fields rest (rid + 1)

/-- The whole pipeline up to the data-frame: discovered schema, then rows. -/
def rowsOf (lines : List (List Char)) (po : Option (List (List Char))) : List Row :=
  pass2 (orderedFields lines po) lines 0

/-- The kept lines, as `(label, left, right)`, in input order (reference
description used by the row-count/id claims). -/
def keptTriples (lines : List (List Char)) : List (Int × List Char × List Char) :=
  lines.foldr
    (fun raw acc =>
      match splitLine raw with
      | none => acc
      | some (l, r, lab) =>
        match parseIntPy lab with
        | none => acc
        | some n => (n, l, r) :: acc)
    []

/-- Pairing a list with consecutive indices starting at `n`. -/
def enumFrom (n : Nat) : List α → List (Nat × α)
  | [] => []
  | x :: xs => (n, x) :: enumFrom (n + 1) xs

/-- A line the passes skip as malformed (blank, or not exactly three parts). -/
def isMalformed (raw : List Char) : Bool := (splitLine raw).isNone

/-- A well-formed line whose label is not an integer. -/
def hasInvalidLabel (raw : List Char) : Bool :=
  match splitLine raw with
  | none => false
  | some (_, _, lab) => (parseIntPy lab).isNone

/-- Duplicate removal keeping first occurrences (dict key order). -/
def firstDedup : List (List Char) → List (List Char)
  | [] => []
  | k :: ks => k :: (firstDedup ks).filter (fun x => decide (x ≠ k))

/-- The pairs `(key, value)` of the matches of `text` as the spec describes
them: the `i`-th value span starts right after match `i` and ends right
before match `i + 1` (end of string for the last one), cleaned per the spec's
wording, the name lowercased. -/
def specPairs (text : List Char) : List (List Char × List Char) :=
  ((findMatches text).zip (((findMatches text).map (fun m => m.1)).drop 1 ++ [text.length])).map
    (fun me => (lowerList me.1.2.2, specClean (sliceStr text me.1.2.1 me.2)))

/-- The pairs `(key, value)` extracted for an arbitrary match list with the
code's clean-up (helper relating the parser loop to the per-match
description). -/
def matchPairs (text : List Char) (ms : List (Nat × Nat × List Char)) :
    List (List Char × List Char) :=
  (ms.zip ((ms.map (fun m => m.1)).drop 1 ++ [text.length])).map
    (fun me => (lowerList me.1.2.2, cleanVal (sliceStr text me.1.2.1 me.2)))

/-- `df[col].astype(str).str.extract(r'(\d{4})')`: the leftmost window of four
consecutive digits. -/
def extract4 : List Char → Option (List Char)
  | c1 :: c2 :: c3 :: c4 :: rest =>
    if c1.isDigit && c2.isDigit && c3.isDigit && c4.isDigit then some [c1, c2, c3, c4]
    else extract4 (c2 :: c3 :: c4 :: rest)
  | _ => none

/-- Whether four consecutive digits start at position `i` of `v` (used to
state that `extract4` returns the leftmost such window). -/
def fourDigAt (v : List Char) (i : Nat) : Bool :=
  match v.drop i with
  | c1 :: c2 :: c3 :: c4 :: _ => c1.isDigit && c2.isDigit && c3.isDigit && c4.isDigit
  | _ => false

/-- The year normalization of `dcm.py`: first four-digit substring,
`""` when there is none (`.fillna("")`). -/
def yearExtract (v : List Char) : List Char := (extract4 v).getD []

/-- The post-processing loop of `dcm.py` applied to one row: the
`left_year` / `right_year` columns are rewritten, everything else is kept. -/
def postYearRow (row : Row) : Row :=
  { row with
    cols := row.cols.map
      (fun kv =>
        if kv.1 = leftCol (s2l "year") ∨ kv.1 = rightCol (s2l "year") then
          (kv.1, yearExtract kv.2)
        else kv) }

/-- The `dcm.py` pipeline up to the data-frame: rows, then year
normalization. -/
def rowsOfDcm (lines : List (List Char)) (po : Option (List (List Char))) : List Row :=
  (rowsOf lines po).map postYearRow

/-- The keys of the dict a row is built as. -/
def rowKeys (row : Row) : List (List Char) :=
  s2l "id" :: s2l "label" :: row.cols.map Prod.fst

/-- `pd.DataFrame(data).columns`: the union of the rows' dict keys in order
of first appearance; in particular there are no columns at all when `data`
is empty. -/
def dfColumns (rows : List Row) : List (List Char) :=
  rows.foldl (fun acc row => acc ++ (rowKeys row).filter (fun k => decide (¬ k ∈ acc))) []

/-- `df.to_csv(...)` abstracted: the header cells and the data rows. -/
def csvTable (lines : List (List Char)) (po : Option (List (List Char))) :
    List (List Char) × List Row :=
  (dfColumns (rowsOf lines po), rowsOf lines po)

example :
    orderSchema (some [s2l "title", s2l "year"]) [s2l "year", s2l "title", s2l "brand"] =
      [s2l "title", s2l "year", s2l "brand"] := by decide

example :
    rowsOf [s2l "no markers here\tCOL t VAL x\t0"] none =
      [⟨0, 0, [(s2l "left_t", []), (s2l "right_t", s2l "x")]⟩] := by decide

example :
    rowsOf [s2l "COL a VAL x\tCOL b VAL y\tnotanint", s2l "COL c VAL u\tCOL c VAL v\t1"] none =
      [⟨0, 1, [(s2l "left_a", []), (s2l "right_a", []), (s2l "left_b", []),
        (s2l "right_b", []), (s2l "left_c", s2l "u"), (s2l "right_c", s2l "v")]⟩] := by decide

example : yearExtract (s2l "circa 2007 edition") = s2l "2007" := by decide

example : yearExtract (s2l "unknown era") = [] := by decide

example : parseIntPy (s2l " 12 ") = some 12 := by decide

example : parseIntPy (s2l "-3") = some (-3) := by decide

example : parseIntPy (s2l "notanint") = none := by decide

example : splitLine (s2l "COL t VAL x\t\t\tCOL t VAL y\t\t2") =
    some (s2l "COL t VAL x", s2l "COL t VAL y", s2l "2") := by decide

example : csvTable [] none = ([], []) := by decide

/-!
Basic facts about `dropWhile` / `dropEnd` (the two halves of Python `strip`)
and about whitespace collapsing, leading to the equivalence of the code's
value clean-up with the spec's description of it.
-/

theorem dropEnd_cons_of_nil {p : Char → Bool} {c : Char} {cs : List Char}
    (h : dropEnd p cs = []) : dropEnd p (c :: cs) = if p c then [] else [c] := by
  simp [dropEnd, h]

theorem dropEnd_cons_of_ne {p : Char → Bool} {c : Char} {cs : List Char}
    (h : dropEnd p cs ≠ []) : dropEnd p (c :: cs) = c :: dropEnd p cs := by
  simp [dropEnd, List.isEmpty_iff, h]

theorem dropEnd_eq_nil_iff {p : Char → Bool} {l : List Char} :
    dropEnd p l = [] ↔ ∀ c ∈ l, p c = true := by
  induction l with
  | nil => simp [dropEnd]
  | cons c cs ih =>
    by_cases h : dropEnd p cs = []
    · rw [dropEnd_cons_of_nil h]
      have hall := ih.mp h
      by_cases hc : p c = true
      · rw [if_pos hc]
        refine ⟨fun _ x hx => ?_, fun _ => rfl⟩
        rcases List.mem_cons.mp hx with rfl | hx
        · exact hc
        · exact hall x hx
      · rw [if_neg hc]
        constructor
        · intro he; exact absurd he (List.cons_ne_nil c [])
        · intro hcont; exact absurd (hcont c (List.mem_cons_self c cs)) hc
    · rw [dropEnd_cons_of_ne h]
      constructor
      · intro he; exact absurd he (List.cons_ne_nil _ _)
      · intro hcont
        exact absurd (ih.mpr fun x hx => hcont x (List.mem_cons_of_mem c hx)) h

theorem dropEnd_all_imp {p : Char → Bool} {l : List Char}
    (h : ∀ c ∈ dropEnd p l, p c = true) : dropEnd p l = [] := by
  induction l with
  | nil => rfl
  | cons c cs ih =>
    by_cases h0 : dropEnd p cs = []
    · rw [dropEnd_cons_of_nil h0]
      rw [dropEnd_cons_of_nil h0] at h
      by_cases hc : p c = true
      · simp [hc]
      · exfalso
        apply hc
        apply h c
        simp [hc]
    · exfalso
      apply h0
      apply ih
      rw [dropEnd_cons_of_ne h0] at h
      intro x hx
      exact h x (List.mem_cons_of_mem c hx)

theorem mem_dropEnd {p : Char → Bool} {l : List Char} {x : Char}
    (hx : x ∈ dropEnd p l) : x ∈ l := by
  induction l with
  | nil => cases hx
  | cons c cs ih =>
    by_cases h0 : dropEnd p cs = []
    · rw [dropEnd_cons_of_nil h0] at hx
      by_cases hc : p c = true
      · simp [hc] at hx
      · simp [hc] at hx
        simp [hx]
    · rw [dropEnd_cons_of_ne h0] at hx
      rcases List.mem_cons.mp hx with rfl | hx
      · exact List.mem_cons_self _ _
      · exact List.mem_cons_of_mem c (ih hx)

theorem dropEnd_head? {p : Char → Bool} {l : List Char}
    (h : dropEnd p l ≠ []) : (dropEnd p l).head? = l.head? := by
  cases l with
  | nil => cases h rfl
  | cons c cs =>
    by_cases h0 : dropEnd p cs = []
    · rw [dropEnd_cons_of_nil h0] at h ⊢
      by_cases hc : p c = true
      · rw [if_pos hc] at h; cases h rfl
      · rw [if_neg hc]; rfl
    · rw [dropEnd_cons_of_ne h0]; rfl

theorem dropEnd_getLast?_not {p : Char → Bool} {l : List Char} {c : Char}
    (h : (dropEnd p l).getLast? = some c) : p c = false := by
  induction l with
  | nil => cases h
  | cons d ds ih =>
    by_cases h0 : dropEnd p ds = []
    · rw [dropEnd_cons_of_nil h0] at h
      by_cases hd : p d = true
      · rw [if_pos hd] at h; cases h
      · rw [if_neg hd] at h
        simp only [List.getLast?_singleton, Option.some.injEq] at h
        subst h
        exact Bool.eq_false_iff.mpr hd
    · rw [dropEnd_cons_of_ne h0] at h
      apply ih
      cases he : dropEnd p ds with
      | nil => exact absurd he h0
      | cons e es => rw [he] at h; rwa [List.getLast?_cons_cons] at h

theorem dropWhile_head?_not {p : Char → Bool} {l : List Char} {c : Char}
    (h : (l.dropWhile p).head? = some c) : p c = false := by
  induction l with
  | nil => cases h
  | cons d ds ih =>
    rw [List.dropWhile_cons] at h
    by_cases hd : p d = true
    · rw [if_pos hd] at h; exact ih h
    · rw [if_neg hd] at h
      simp only [List.head?_cons, Option.some.injEq] at h
      subst h
      exact Bool.eq_false_iff.mpr hd

theorem dropWhile_absorb {p q : Char → Bool} {l : List Char}
    (h : ∀ c ∈ l, p c = true → q c = true) :
    (l.dropWhile p).dropWhile q = l.dropWhile q := by
  induction l with
  | nil => rfl
  | cons c cs ih =>
    rw [List.dropWhile_cons]
    by_cases hc : p c = true
    · rw [if_pos hc, List.dropWhile_cons, if_pos (h c (List.mem_cons_self c cs) hc)]
      exact ih fun x hx => h x (List.mem_cons_of_mem c hx)
    · rw [if_neg hc]

theorem dropEnd_absorb {p q : Char → Bool} {l : List Char}
    (h : ∀ c ∈ l, p c = true → q c = true) :
    dropEnd q (dropEnd p l) = dropEnd q l := by
  induction l with
  | nil => rfl
  | cons c cs ih =>
    have ih' := ih fun x hx => h x (List.mem_cons_of_mem c hx)
    by_cases h0 : dropEnd p cs = []
    · rw [dropEnd_cons_of_nil h0]
      have hqnil : dropEnd q cs = [] := by rw [← ih', h0]; rfl
      by_cases hc : p c = true
      · rw [if_pos hc, dropEnd_cons_of_nil hqnil,
          if_pos (h c (List.mem_cons_self c cs) hc)]
        rfl
      · rw [if_neg hc, dropEnd_cons_of_nil hqnil]
        show dropEnd q [c] = if q c = true then [] else [c]
        simp [dropEnd]
    · rw [dropEnd_cons_of_ne h0]
      by_cases hq0 : dropEnd q cs = []
      · have : dropEnd q (dropEnd p cs) = [] := by rw [ih', hq0]
        rw [dropEnd_cons_of_nil this, dropEnd_cons_of_nil hq0]
      · have : dropEnd q (dropEnd p cs) ≠ [] := by rw [ih']; exact hq0
        rw [dropEnd_cons_of_ne this, dropEnd_cons_of_ne hq0, ih']

theorem dropWhile_congrP {p q : Char → Bool} {l : List Char}
    (h : ∀ c ∈ l, p c = q c) : l.dropWhile p = l.dropWhile q := by
  induction l with
  | nil => rfl
  | cons c cs ih =>
    rw [List.dropWhile_cons, List.dropWhile_cons, h c (List.mem_cons_self c cs)]
    by_cases hq : q c = true
    · rw [if_pos hq, if_pos hq]
      exact ih fun x hx => h x (List.mem_cons_of_mem c hx)
    · rw [if_neg hq, if_neg hq]

theorem dropEnd_congrP {p q : Char → Bool} {l : List Char}
    (h : ∀ c ∈ l, p c = q c) : dropEnd p l = dropEnd q l := by
  induction l with
  | nil => rfl
  | cons c cs ih =>
    have ih' := ih fun x hx => h x (List.mem_cons_of_mem c hx)
    by_cases h0 : dropEnd p cs = []
    · have hq0 : dropEnd q cs = [] := by rw [← ih']; exact h0
      rw [dropEnd_cons_of_nil h0, dropEnd_cons_of_nil hq0, h c (List.mem_cons_self c cs)]
    · have hq0 : dropEnd q cs ≠ [] := by rw [← ih']; exact h0
      rw [dropEnd_cons_of_ne h0, dropEnd_cons_of_ne hq0, ih']

theorem dropWhile_dropEnd_comm {p q : Char → Bool} {l : List Char} :
    (dropEnd q l).dropWhile p = dropEnd q (l.dropWhile p) := by
  induction l with
  | nil => rfl
  | cons c cs ih =>
    rw [List.dropWhile_cons]
    by_cases hp : p c = true
    · rw [if_pos hp]
      by_cases h0 : dropEnd q cs = []
      · rw [dropEnd_cons_of_nil h0]
        have hall : ∀ x ∈ cs, q x = true := dropEnd_eq_nil_iff.mp h0
        have hnil : dropEnd q (cs.dropWhile p) = [] :=
          dropEnd_eq_nil_iff.mpr fun x hx =>
            hall x ((List.dropWhile_sublist p).mem hx)
        rw [hnil]
        by_cases hq : q c = true
        · rw [if_pos hq]; rfl
        · rw [if_neg hq]
          simp [List.dropWhile_cons, hp]
      · rw [dropEnd_cons_of_ne h0, List.dropWhile_cons, if_pos hp, ih]
    · rw [if_neg hp]
      by_cases h0 : dropEnd q cs = []
      · rw [dropEnd_cons_of_nil h0]
        by_cases hq : q c = true
        · rw [if_pos hq]; rfl
        · rw [if_neg hq]
          simp [List.dropWhile_cons, hp]
      · rw [dropEnd_cons_of_ne h0]
        simp [List.dropWhile_cons, hp]

theorem collapse_false_nil {l : List Char} (h : collapseWSAux false l = []) : l = [] := by
  cases l with
  | nil => rfl
  | cons c cs =>
    by_cases hc : isPySpace c = true
    · simp [collapseWSAux, hc] at h
    · simp [collapseWSAux, hc] at h

theorem collapse_true_all {l : List Char} (h : collapseWSAux true l = []) :
    ∀ c ∈ l, isPySpace c = true := by
  induction l with
  | nil => intro c hc; cases hc
  | cons c cs ih =>
    by_cases hc : isPySpace c = true
    · simp only [collapseWSAux, hc, if_true] at h
      intro x hx
      rcases List.mem_cons.mp hx with rfl | hx
      · exact hc
      · exact ih h x hx
    · simp [collapseWSAux, hc] at h

theorem mem_collapse_space {l : List Char} {c : Char} :
    ∀ {b : Bool}, c ∈ collapseWSAux b l → isPySpace c = true → c = ' ' := by
  induction l with
  | nil => intro b hc; cases hc
  | cons d ds ih =>
    intro b hc hs
    by_cases hd : isPySpace d = true
    · simp only [collapseWSAux, hd, if_true] at hc
      cases b with
      | true => exact ih hc hs
      | false =>
        rcases List.mem_cons.mp hc with rfl | hc
        · rfl
        · exact ih hc hs
    · simp only [collapseWSAux, hd, if_false] at hc
      rcases List.mem_cons.mp hc with rfl | hc
      · exact absurd hs hd
      · exact ih hc hs

theorem collapse_cons_sp_true {c : Char} (hc : isPySpace c = true) (cs : List Char) :
    collapseWSAux true (c :: cs) = collapseWSAux true cs := by
  simp [collapseWSAux, hc]

theorem collapse_cons_sp_false {c : Char} (hc : isPySpace c = true) (cs : List Char) :
    collapseWSAux false (c :: cs) = ' ' :: collapseWSAux true cs := by
  simp [collapseWSAux, hc]

theorem collapse_cons_nsp {c : Char} (hc : isPySpace c = false) (cs : List Char) (b : Bool) :
    collapseWSAux b (c :: cs) = c :: collapseWSAux false cs := by
  cases b with
  | true => simp [collapseWSAux, hc]
  | false => simp [collapseWSAux, hc]

theorem collapse_dropWhile (l : List Char) :
    ∀ b, (collapseWSAux b l).dropWhile isPySpace = collapseWSAux false (l.dropWhile isPySpace) := by
  have hsp : isPySpace ' ' = true := rfl
  induction l with
  | nil => intro b; rfl
  | cons c cs ih =>
    intro b
    by_cases hc : isPySpace c = true
    · cases b with
      | true =>
        rw [collapse_cons_sp_true hc, List.dropWhile_cons, if_pos hc]
        exact ih true
      | false =>
        rw [collapse_cons_sp_false hc, List.dropWhile_cons, if_pos hsp,
          List.dropWhile_cons, if_pos hc]
        exact ih true
    · have hcf : isPySpace c = false := by simpa using hc
      rw [collapse_cons_nsp hcf cs b, List.dropWhile_cons, if_neg hc,
        List.dropWhile_cons, if_neg hc, collapse_cons_nsp hcf cs false]

theorem collapse_dropEnd (l : List Char) :
    ∀ b, dropEnd isPySpace (collapseWSAux b l) = collapseWSAux b (dropEnd isPySpace l) := by
  have hsp : isPySpace ' ' = true := rfl
  induction l with
  | nil => intro b; rfl
  | cons c cs ih =>
    intro b
    by_cases hc : isPySpace c = true
    · by_cases h0 : dropEnd isPySpace cs = []
      · have h1 : dropEnd isPySpace (collapseWSAux true cs) = [] := by
          rw [ih true, h0]; rfl
        have h2 : dropEnd isPySpace (c :: cs) = [] := by
          rw [dropEnd_cons_of_nil h0, if_pos hc]
        cases b with
        | true => rw [collapse_cons_sp_true hc, h1, h2]; rfl
        | false =>
          rw [collapse_cons_sp_false hc, h2, dropEnd_cons_of_nil h1, if_pos hsp]
          rfl
      · have hne : collapseWSAux true (dropEnd isPySpace cs) ≠ [] := by
          intro hnil
          exact h0 (dropEnd_all_imp (collapse_true_all hnil))
        have h1 : dropEnd isPySpace (collapseWSAux true cs) ≠ [] := by
          rw [ih true]; exact hne
        have h2 : dropEnd isPySpace (c :: cs) = c :: dropEnd isPySpace cs :=
          dropEnd_cons_of_ne h0
        cases b with
        | true =>
          rw [collapse_cons_sp_true hc, ih true, h2, collapse_cons_sp_true hc]
        | false =>
          rw [collapse_cons_sp_false hc, dropEnd_cons_of_ne h1, ih true, h2,
            collapse_cons_sp_false hc]
    · have hcf : isPySpace c = false := by simpa using hc
      by_cases h0 : dropEnd isPySpace (collapseWSAux false cs) = []
      · have hcs : dropEnd isPySpace cs = [] := by
          rw [ih false] at h0
          exact collapse_false_nil h0
        rw [collapse_cons_nsp hcf cs b, dropEnd_cons_of_nil h0, if_neg hc,
          dropEnd_cons_of_nil hcs, if_neg hc, collapse_cons_nsp hcf [] b]
        rfl
      · have hcs : dropEnd isPySpace cs ≠ [] := by
          intro hnil
          apply h0
          rw [ih false, hnil]
          rfl
        have h2 : dropEnd isPySpace (c :: cs) = c :: dropEnd isPySpace cs :=
          dropEnd_cons_of_ne hcs
        rw [collapse_cons_nsp hcf cs b, dropEnd_cons_of_ne h0, ih false, h2,
          collapse_cons_nsp hcf (dropEnd isPySpace cs) b]

theorem sep_eq_sepOrSpace {c : Char} (h : isPySpace c = true → c = ' ') :
    isSepChar c = isSepOrSpace c := by
  by_cases hsp : isPySpace c = true
  · rw [h hsp]
    rfl
  · have hcf : isPySpace c = false := by simpa using hsp
    have hne : c ≠ ' ' := by
      intro he
      rw [he] at hcf
      cases hcf
    unfold isSepChar isSepOrSpace
    rw [hcf]
    simp [hne]

theorem space_imp_sep {c : Char} (h : isPySpace c = true → c = ' ') :
    isPySpace c = true → isSepChar c = true := by
  intro hsp
  rw [h hsp]
  rfl

/-- The clean-up the code performs (`strip()`, collapse, `strip(' |;,:')`)
coincides with the clean-up as the spec words it (collapse, then strip
separators and whitespace from both ends). -/
theorem cleanVal_eq_specClean (v : List Char) : cleanVal v = specClean v := by
  have hmem : ∀ c ∈ collapseWS v, isPySpace c = true → c = ' ' :=
    fun c hc => mem_collapse_space hc
  have h1 : collapseWS (pyStrip v) =
      dropEnd isPySpace ((collapseWS v).dropWhile isPySpace) := by
    unfold pyStrip collapseWS
    rw [← collapse_dropEnd (List.dropWhile isPySpace v) false, ← collapse_dropWhile v false]
  unfold cleanVal specClean stripSeps stripSpec
  rw [h1]
  have h2 : ((collapseWS v).dropWhile isPySpace).dropWhile isSepChar =
      (collapseWS v).dropWhile isSepOrSpace := by
    rw [dropWhile_absorb (fun c hc => space_imp_sep (hmem c hc))]
    exact dropWhile_congrP fun c hc => sep_eq_sepOrSpace (hmem c hc)
  rw [dropWhile_dropEnd_comm, h2]
  rw [dropEnd_absorb (fun c hc =>
    space_imp_sep (hmem c ((List.dropWhile_sublist isSepOrSpace).mem hc)))]
  exact dropEnd_congrP fun c hc =>
    sep_eq_sepOrSpace (hmem c ((List.dropWhile_sublist isSepOrSpace).mem hc))

/-!
The parser loop as a fold over the per-match `(key, value)` pairs, and the
insertion-order / last-value-wins behaviour of dict insertion.
-/

theorem matchPairs_one (text : List Char) (m : Nat × Nat × List Char) :
    matchPairs text [m] =
      [(lowerList m.2.2, cleanVal (sliceStr text m.2.1 text.length))] := rfl

theorem matchPairs_cons_cons (text : List Char) (m m2 : Nat × Nat × List Char)
    (ms : List (Nat × Nat × List Char)) :
    matchPairs text (m :: m2 :: ms) =
      (lowerList m.2.2, cleanVal (sliceStr text m.2.1 m2.1)) :: matchPairs text (m2 :: ms) := rfl

theorem buildRecord_eq_foldl (text : List Char) :
    ∀ (ms : List (Nat × Nat × List Char)) (acc : List (List Char × List Char)),
      buildRecord text ms acc =
        (matchPairs text ms).foldl (fun a kv => insertLV kv.1 kv.2 a) acc := by
  intro ms
  induction ms with
  | nil => intro acc; rfl
  | cons m ms ih =>
    intro acc
    cases ms with
    | nil =>
      rw [matchPairs_one, List.foldl_cons, List.foldl_nil]
      rfl
    | cons m2 ms2 =>
      rw [matchPairs_cons_cons, List.foldl_cons, ← ih]
      rfl

theorem specPairs_eq_matchPairs (text : List Char) :
    specPairs text = matchPairs text (findMatches text) := by
  unfold specPairs matchPairs
  congr 1
  funext me
  rw [cleanVal_eq_specClean]

theorem robust_eq_foldl_specPairs (text : List Char) :
    robust_parse_col_val text =
      (specPairs text).foldl (fun a kv => insertLV kv.1 kv.2 a) [] := by
  rw [specPairs_eq_matchPairs]
  exact buildRecord_eq_foldl text (findMatches text) []

theorem insertLV_keys (k v : List Char) (m : List (List Char × List Char)) :
    (insertLV k v m).map Prod.fst =
      if k ∈ m.map Prod.fst then m.map Prod.fst else m.map Prod.fst ++ [k] := by
  induction m with
  | nil => simp [insertLV]
  | cons p ps ih =>
    obtain ⟨k0, v0⟩ := p
    by_cases h : k0 = k
    · subst h
      simp [insertLV]
    · have hne : ¬ k = k0 := fun he => h he.symm
      simp only [insertLV, if_neg h, List.map_cons]
      rw [ih]
      by_cases hk : k ∈ ps.map Prod.fst
      · rw [if_pos hk, if_pos (by simp [hk])]
      · rw [if_neg hk, if_neg (by simp [hne, hk]), List.cons_append]

theorem lookup_insertLV (k v k2 : List Char) (m : List (List Char × List Char)) :
    lookupAssoc k2 (insertLV k v m) =
      if k2 = k then some v else lookupAssoc k2 m := by
  induction m with
  | nil =>
    by_cases h : k2 = k
    · subst h; simp [insertLV, lookupAssoc]
    · have : ¬ k = k2 := fun he => h he.symm
      simp [insertLV, lookupAssoc, h, this]
  | cons p ps ih =>
    obtain ⟨k0, v0⟩ := p
    by_cases h0 : k0 = k
    · subst h0
      simp only [insertLV, if_pos rfl]
      by_cases h2 : k2 = k0
      · subst h2
        simp [lookupAssoc]
      · have : ¬ k0 = k2 := fun he => h2 he.symm
        simp [lookupAssoc, h2, this]
    · simp only [insertLV, if_neg h0]
      by_cases h2 : k0 = k2
      · subst h2
        simp [lookupAssoc, h0]
      · simp [lookupAssoc, h2, ih]

theorem lookupAssoc_append (k : List Char) (l1 l2 : List (List Char × List Char)) :
    lookupAssoc k (l1 ++ l2) = (lookupAssoc k l1).or (lookupAssoc k l2) := by
  induction l1 with
  | nil => simp [lookupAssoc]
  | cons p ps ih =>
    obtain ⟨k0, v0⟩ := p
    by_cases h : k0 = k
    · simp [lookupAssoc, h]
    · simp [lookupAssoc, h, ih]

theorem foldl_insert_keys (ps : List (List Char × List Char)) :
    ∀ acc : List (List Char × List Char),
      (ps.foldl (fun a kv => insertLV kv.1 kv.2 a) acc).map Prod.fst =
        acc.map Prod.fst ++
          (firstDedup (ps.map Prod.fst)).filter
            (fun x => decide (¬ x ∈ acc.map Prod.fst)) := by
  induction ps with
  | nil => intro acc; simp [firstDedup]
  | cons p ps ih =>
    intro acc
    obtain ⟨k, v⟩ := p
    rw [List.foldl_cons, ih, insertLV_keys]
    simp only [List.map_cons, firstDedup, List.filter_cons]
    by_cases hk : k ∈ acc.map Prod.fst
    · rw [if_pos hk]
      have hdk : decide (¬ k ∈ acc.map Prod.fst) = false := by simp [hk]
      rw [hdk]
      simp only [Bool.false_eq_true, if_false]
      congr 1
      rw [List.filter_filter]
      refine List.filter_congr ?_
      intro x hx
      by_cases hxk : x = k
      · subst hxk
        simp [hk]
      · simp [hxk]
    · rw [if_neg hk]
      have hdk : decide (¬ k ∈ acc.map Prod.fst) = true := by simp [hk]
      rw [hdk]
      simp only [if_true]
      rw [List.append_assoc, List.singleton_append]
      congr 2
      rw [List.filter_filter]
      refine List.filter_congr ?_
      intro x hx
      by_cases hxk : x = k
      · subst hxk
        simp
      · simp [hxk, List.mem_append]

theorem foldl_insert_lookup (k2 : List Char) (ps : List (List Char × List Char)) :
    ∀ acc, lookupAssoc k2 (ps.foldl (fun a kv => insertLV kv.1 kv.2 a) acc) =
      (lookupAssoc k2 ps.reverse).or (lookupAssoc k2 acc) := by
  induction ps with
  | nil => intro acc; simp [lookupAssoc]
  | cons p ps ih =>
    intro acc
    obtain ⟨k, v⟩ := p
    rw [List.foldl_cons, ih, List.reverse_cons, lookupAssoc_append, lookup_insertLV]
    cases hA : lookupAssoc k2 ps.reverse with
    | some a => rfl
    | none =>
      simp only [Option.none_or]
      by_cases h2 : k2 = k
      · subst h2
        simp [lookupAssoc]
      · have : ¬ k = k2 := fun he => h2 he.symm
        simp [lookupAssoc, h2, this]

theorem firstDedup_nodup (ks : List (List Char)) : (firstDedup ks).Nodup := by
  induction ks with
  | nil => exact List.nodup_nil
  | cons k ks ih =>
    rw [firstDedup, List.nodup_cons]
    constructor
    · intro hmem
      have := (List.mem_filter.mp hmem).2
      simp at this
    · exact List.Nodup.filter _ ih

theorem scanAux_sound (text : List Char) :
    ∀ (fuel pos : Nat) (prevW : Bool) (s e : Nat) (nm : List Char),
      (s, e, nm) ∈ scanAux text fuel pos prevW →
      tryTriple (text.drop s) = some (e - s, nm) := by
  intro fuel
  induction fuel with
  | zero => intro pos prevW s e nm h; cases h
  | succ fuel ih =>
    intro pos prevW s e nm h
    cases hd : text.drop pos with
    | nil => rw [scanAux, hd] at h; cases h
    | cons c cs =>
      rw [scanAux, hd] at h
      cases prevW with
      | true => exact ih _ _ s e nm h
      | false =>
        cases hm : tryTriple (c :: cs) with
        | none =>
          rw [hm] at h
          exact ih _ _ s e nm h
        | some p =>
          obtain ⟨len, nm2⟩ := p
          rw [hm] at h
          rcases List.mem_cons.mp h with he | h
          · simp only [Prod.mk.injEq] at he
            obtain ⟨rfl, rfl, rfl⟩ := he
            rw [hd, hm, Nat.add_sub_cancel_left]
          · exact ih _ _ s e nm h

/-!
Second pass: the kept rows are exactly the kept lines, enumerated with
consecutive ids.
-/

theorem keptTriples_cons_skip {raw : List Char} (rest : List (List Char))
    (h : splitLine raw = none) : keptTriples (raw :: rest) = keptTriples rest := by
  simp only [keptTriples, List.foldr_cons, h]

theorem keptTriples_cons_badlabel {raw l r lab : List Char} (rest : List (List Char))
    (h : splitLine raw = some (l, r, lab)) (h2 : parseIntPy lab = none) :
    keptTriples (raw :: rest) = keptTriples rest := by
  simp only [keptTriples, List.foldr_cons, h, h2]

theorem keptTriples_cons_keep {raw l r lab : List Char} {n : Int} (rest : List (List Char))
    (h : splitLine raw = some (l, r, lab)) (h2 : parseIntPy lab = some n) :
    keptTriples (raw :: rest) = (n, l, r) :: keptTriples rest := by
  simp only [keptTriples, List.foldr_cons, h, h2]

theorem pass2_cons_skip (fields : List (List Char)) {raw : List Char}
    (rest : List (List Char)) (rid : Nat) (h : splitLine raw = none) :
    pass2 fields (raw :: rest) rid = pass2 fields rest rid := by
  simp only [pass2, h]

theorem pass2_cons_badlabel (fields : List (List Char)) {raw l r lab : List Char}
    (rest : List (List Char)) (rid : Nat)
    (h : splitLine raw = some (l, r, lab)) (h2 : parseIntPy lab = none) :
    pass2 fields (raw :: rest) rid = pass2 fields rest rid := by
  simp only [pass2, h, h2]

theorem pass2_cons_keep (fields : List (List Char)) {raw l r lab : List Char} {n : Int}
    (rest : List (List Char)) (rid : Nat)
    (h : splitLine raw = some (l, r, lab)) (h2 : parseIntPy lab = some n) :
    pass2 fields (raw :: rest) rid = makeRow fields rid n l r :: pass2 fields rest (rid + 1) := by
  simp only [pass2, h, h2]

theorem pass2_eq_enum (fields : List (List Char)) :
    ∀ (lines : List (List Char)) (rid : Nat),
      pass2 fields lines rid =
        (enumFrom rid (keptTriples lines)).map
          (fun p => makeRow fields p.1 p.2.1 p.2.2.1 p.2.2.2) := by
  intro lines
  induction lines with
  | nil => intro rid; rfl
  | cons raw rest ih =>
    intro rid
    cases hs : splitLine raw with
    | none =>
      rw [pass2_cons_skip fields rest rid hs, keptTriples_cons_skip rest hs]
      exact ih rid
    | some t =>
      obtain ⟨l, r, lab⟩ := t
      cases hp : parseIntPy lab with
      | none =>
        rw [pass2_cons_badlabel fields rest rid hs hp, keptTriples_cons_badlabel rest hs hp]
        exact ih rid
      | some n =>
        rw [pass2_cons_keep fields rest rid hs hp, keptTriples_cons_keep rest hs hp]
        simp only [enumFrom, List.map_cons]
        rw [ih (rid + 1)]

theorem enumFrom_map_fst {α : Type} (xs : List α) :
    ∀ n : Nat, (enumFrom n xs).map Prod.fst = List.range' n xs.length := by
  induction xs with
  | nil => intro n; rfl
  | cons x xs ih =>
    intro n
    simp only [enumFrom, List.map_cons, List.length_cons, List.range'_succ]
    rw [ih (n + 1)]

theorem length_eq_kept_add_skipped (lines : List (List Char)) :
    lines.length =
      (keptTriples lines).length + lines.countP isMalformed + lines.countP hasInvalidLabel := by
  induction lines with
  | nil => rfl
  | cons raw rest ih =>
    rw [List.length_cons, List.countP_cons, List.countP_cons]
    cases hs : splitLine raw with
    | none =>
      rw [keptTriples_cons_skip rest hs]
      have h1 : isMalformed raw = true := by simp [isMalformed, hs]
      have h2 : hasInvalidLabel raw = false := by simp [hasInvalidLabel, hs]
      rw [h1, h2]
      simp only [if_true, Bool.false_eq_true, if_false]
      omega
    | some t =>
      obtain ⟨l, r, lab⟩ := t
      have h1 : isMalformed raw = false := by simp [isMalformed, hs]
      cases hp : parseIntPy lab with
      | none =>
        rw [keptTriples_cons_badlabel rest hs hp]
        have h2 : hasInvalidLabel raw = true := by simp [hasInvalidLabel, hs, hp]
        rw [h1, h2]
        simp only [if_true, Bool.false_eq_true, if_false]
        omega
      | some n =>
        rw [keptTriples_cons_keep rest hs hp]
        have h2 : hasInvalidLabel raw = false := by simp [hasInvalidLabel, hs, hp]
        rw [h1, h2]
        simp only [Bool.false_eq_true, if_false, List.length_cons]
        omega

/-!
Row assembly: every schema field yields a `left_` and a `right_` column whose
value is the tokenized one, `""` when absent.
-/

theorem leftCol_chars (f : List Char) : leftCol f = 'l' :: 'e' :: 'f' :: 't' :: '_' :: f := rfl

theorem rightCol_chars (f : List Char) :
    rightCol f = 'r' :: 'i' :: 'g' :: 'h' :: 't' :: '_' :: f := rfl

theorem leftCol_inj {f g : List Char} (h : leftCol f = leftCol g) : f = g := by
  rw [leftCol_chars, leftCol_chars] at h
  simpa using h

theorem rightCol_inj {f g : List Char} (h : rightCol f = rightCol g) : f = g := by
  rw [rightCol_chars, rightCol_chars] at h
  simpa using h

theorem leftCol_ne_rightCol (f g : List Char) : leftCol f ≠ rightCol g := by
  intro h
  rw [leftCol_chars, rightCol_chars] at h
  simp at h

theorem mkCols_lookup_left (lm rm : List (List Char × List Char)) :
    ∀ (fields : List (List Char)) (f : List Char), f ∈ fields →
      lookupAssoc (leftCol f) (mkCols lm rm fields) = some (getD f lm) := by
  intro fields
  induction fields with
  | nil => intro f hf; cases hf
  | cons g fs ih =>
    intro f hf
    by_cases hg : g = f
    · subst hg
      simp [mkCols, lookupAssoc]
    · have h1 : ¬ leftCol g = leftCol f := fun he => hg (leftCol_inj he)
      have h2 : ¬ rightCol g = leftCol f := fun he => leftCol_ne_rightCol f g he.symm
      simp only [mkCols, lookupAssoc]
      rw [if_neg h1, if_neg h2]
      apply ih
      rcases List.mem_cons.mp hf with rfl | hf
      · exact absurd rfl hg
      · exact hf

theorem mkCols_lookup_right (lm rm : List (List Char × List Char)) :
    ∀ (fields : List (List Char)) (f : List Char), f ∈ fields →
      lookupAssoc (rightCol f) (mkCols lm rm fields) = some (getD f rm) := by
  intro fields
  induction fields with
  | nil => intro f hf; cases hf
  | cons g fs ih =>
    intro f hf
    by_cases hg : g = f
    · subst hg
      have h1 : ¬ leftCol g = rightCol g := leftCol_ne_rightCol g g
      simp only [mkCols, lookupAssoc]
      rw [if_neg h1]
      simp
    · have h1 : ¬ leftCol g = rightCol f := leftCol_ne_rightCol g f
      have h2 : ¬ rightCol g = rightCol f := fun he => hg (rightCol_inj he)
      simp only [mkCols, lookupAssoc]
      rw [if_neg h1, if_neg h2]
      apply ih
      rcases List.mem_cons.mp hf with rfl | hf
      · exact absurd rfl hg
      · exact hf

/-!
First pass: membership in the discovered field set.
-/

theorem mem_setInsert_of_mem {s : List (List Char)} {x : List Char} (y : List Char)
    (h : x ∈ s) : x ∈ setInsert s y := by
  by_cases hy : y ∈ s
  · simp [setInsert, hy, h]
  · simp [setInsert, hy, h]

theorem mem_setInsert_self (s : List (List Char)) (y : List Char) : y ∈ setInsert s y := by
  by_cases hy : y ∈ s
  · simp [setInsert, hy]
  · simp [setInsert, hy]

theorem mem_setInsertAll_of_mem {x : List Char} (xs : List (List Char)) :
    ∀ {s : List (List Char)}, x ∈ s → x ∈ setInsertAll s xs := by
  induction xs with
  | nil => intro s h; exact h
  | cons y ys ih => intro s h; exact ih (mem_setInsert_of_mem y h)

theorem mem_setInsertAll_of_mem_arg {x : List Char} {xs : List (List Char)}
    (h : x ∈ xs) (s : List (List Char)) : x ∈ setInsertAll s xs := by
  induction xs generalizing s with
  | nil => cases h
  | cons y ys ih =>
    rcases List.mem_cons.mp h with rfl | h
    · exact mem_setInsertAll_of_mem ys (mem_setInsert_self s x)
    · exact ih h _

theorem mem_fieldStep_of_mem {acc : List (List Char)} {x : List Char} (raw : List Char)
    (h : x ∈ acc) : x ∈ fieldStep acc raw := by
  unfold fieldStep
  cases hs : splitLine raw with
  | none => exact h
  | some t =>
    obtain ⟨l, r, lab⟩ := t
    exact mem_setInsertAll_of_mem _ (mem_setInsertAll_of_mem _ h)

theorem mem_foldl_fieldStep_of_mem {x : List Char} (lines : List (List Char)) :
    ∀ {acc : List (List Char)}, x ∈ acc → x ∈ lines.foldl fieldStep acc := by
  induction lines with
  | nil => intro acc h; exact h
  | cons raw rest ih => intro acc h; exact ih (mem_fieldStep_of_mem raw h)

theorem mem_foldl_fieldStep (lines : List (List Char)) :
    ∀ {acc : List (List Char)} {raw l r lab f : List Char}, raw ∈ lines →
      splitLine raw = some (l, r, lab) → (f ∈ keysOf l ∨ f ∈ keysOf r) →
      f ∈ lines.foldl fieldStep acc := by
  induction lines with
  | nil => intro acc raw l r lab f hr _hs _hf; cases hr
  | cons raw0 rest ih =>
    intro acc raw l r lab f hr hs hf
    rcases List.mem_cons.mp hr with rfl | hr
    · rw [List.foldl_cons]
      apply mem_foldl_fieldStep_of_mem
      unfold fieldStep
      rw [hs]
      rcases hf with hf | hf
      · exact mem_setInsertAll_of_mem _ (mem_setInsertAll_of_mem_arg hf _)
      · exact mem_setInsertAll_of_mem_arg hf _
    · rw [List.foldl_cons]
      exact ih hr hs hf

theorem mem_allFieldsOf {lines : List (List Char)} {raw l r lab f : List Char}
    (hr : raw ∈ lines) (hs : splitLine raw = some (l, r, lab))
    (hf : f ∈ keysOf l ∨ f ∈ keysOf r) : f ∈ allFieldsOf lines :=
  mem_foldl_fieldStep lines hr hs hf

/-!
Schema ordering: membership, sortedness and permutation facts.
-/

theorem mem_insSorted {x a : List Char} :
    ∀ {l : List (List Char)}, x ∈ insSorted a l ↔ x = a ∨ x ∈ l := by
  intro l
  induction l with
  | nil => simp [insSorted]
  | cons b bs ih =>
    by_cases hb : lexLt b a = true
    · simp only [insSorted, hb, if_true, List.mem_cons, ih]
      tauto
    · simp only [insSorted, hb, Bool.false_eq_true, if_false, List.mem_cons]

theorem mem_sortLex {x : List Char} : ∀ {l : List (List Char)}, x ∈ sortLex l ↔ x ∈ l := by
  intro l
  induction l with
  | nil => simp [sortLex]
  | cons k ks ih =>
    show x ∈ insSorted k (sortLex ks) ↔ _
    rw [mem_insSorted, ih, List.mem_cons]

theorem mem_orderSchema (po : Option (List (List Char))) (s : List (List Char))
    (f : List Char) : f ∈ orderSchema po s ↔ f ∈ s := by
  cases po with
  | none => exact mem_sortLex
  | some p0 =>
    by_cases hp0 : p0.isEmpty
    · simp only [orderSchema, hp0, if_true]
      exact mem_sortLex
    · simp only [orderSchema, hp0, Bool.false_eq_true, if_false, List.mem_append]
      constructor
      · intro h
        rcases h with h | h
        · have := (List.mem_filter.mp h).2
          exact of_decide_eq_true this
        · have := (List.mem_filter.mp (mem_sortLex.mp h)).1
          exact this
      · intro h
        by_cases hf : f ∈ p0.filter (fun g => decide (g ∈ s))
        · exact Or.inl hf
        · refine Or.inr (mem_sortLex.mpr (List.mem_filter.mpr ⟨h, ?_⟩))
          simp [hf]

theorem lexLt_asymm : ∀ {a b : List Char}, lexLt a b = true → lexLt b a = false := by
  intro a
  induction a with
  | nil =>
    intro b h
    cases b with
    | nil => cases h
    | cons c cs => rfl
  | cons c cs ih =>
    intro b h
    cases b with
    | nil => cases h
    | cons d ds =>
      simp only [lexLt] at h ⊢
      by_cases hcd : c.toNat < d.toNat
      · have hdc : ¬ d.toNat < c.toNat := by omega
        rw [if_neg hdc, if_pos hcd]
      · rw [if_neg hcd] at h
        by_cases hdc : d.toNat < c.toNat
        · rw [if_pos hdc] at h; cases h
        · rw [if_neg hdc] at h
          rw [if_neg hdc, if_neg hcd]
          exact ih h

theorem lexLt_trans : ∀ {a b c : List Char},
    lexLt a b = true → lexLt b c = true → lexLt a c = true := by
  intro a
  induction a with
  | nil =>
    intro b c hab hbc
    cases b with
    | nil => cases hab
    | cons d ds =>
      cases c with
      | nil => cases hbc
      | cons e es => rfl
  | cons d ds ih =>
    intro b c hab hbc
    cases b with
    | nil => cases hab
    | cons e es =>
      cases c with
      | nil => cases hbc
      | cons g gs =>
        simp only [lexLt] at hab hbc ⊢
        by_cases hde : d.toNat < e.toNat
        · by_cases heg : e.toNat < g.toNat
          · rw [if_pos (by omega : d.toNat < g.toNat)]
          · rw [if_neg heg] at hbc
            by_cases hge : g.toNat < e.toNat
            · rw [if_pos hge] at hbc; cases hbc
            · have : e.toNat = g.toNat := by omega
              rw [if_pos (by omega : d.toNat < g.toNat)]
        · rw [if_neg hde] at hab
          by_cases hed : e.toNat < d.toNat
          · rw [if_pos hed] at hab; cases hab
          · have hde2 : d.toNat = e.toNat := by omega
            rw [if_neg hed] at hab
            by_cases heg : e.toNat < g.toNat
            · rw [if_pos (by omega : d.toNat < g.toNat)]
            · rw [if_neg heg] at hbc
              by_cases hge : g.toNat < e.toNat
              · rw [if_pos hge] at hbc; cases hbc
              · rw [if_neg hge] at hbc
                rw [if_neg (by omega : ¬ d.toNat < g.toNat),
                  if_neg (by omega : ¬ g.toNat < d.toNat)]
                exact ih hab hbc

theorem lexLt_connex : ∀ {a b : List Char},
    lexLt a b = false → lexLt b a = true ∨ a = b := by
  intro a
  induction a with
  | nil =>
    intro b h
    cases b with
    | nil => exact Or.inr rfl
    | cons c cs => cases h
  | cons c cs ih =>
    intro b h
    cases b with
    | nil => exact Or.inl rfl
    | cons d ds =>
      simp only [lexLt] at h ⊢
      by_cases hcd : c.toNat < d.toNat
      · rw [if_pos hcd] at h; cases h
      · rw [if_neg hcd] at h
        by_cases hdc : d.toNat < c.toNat
        · exact Or.inl (by rw [if_pos hdc])
        · rw [if_neg hdc] at h
          have heq : c = d := by
            have hnat : c.toNat = d.toNat := by omega
            apply Char.eq_of_val_eq
            apply UInt32.ext
            exact hnat
          rcases ih h with h2 | h2
          · refine Or.inl ?_
            rw [if_neg hdc, if_neg hcd]
            exact h2
          · exact Or.inr (by rw [heq, h2])

theorem pairwise_insSorted {a : List Char} :
    ∀ {l : List (List Char)}, List.Pairwise (fun x y => lexLt y x = false) l →
      List.Pairwise (fun x y => lexLt y x = false) (insSorted a l) := by
  intro l
  induction l with
  | nil => intro _; exact List.pairwise_singleton _ _
  | cons b bs ih =>
    intro hp
    have hp' := hp
    rw [List.pairwise_cons] at hp
    obtain ⟨hb, hbs⟩ := hp
    by_cases hba : lexLt b a = true
    · rw [insSorted, if_pos hba, List.pairwise_cons]
      refine ⟨?_, ih hbs⟩
      intro y hy
      rcases mem_insSorted.mp hy with rfl | hy
      · exact lexLt_asymm hba
      · exact hb y hy
    · have hbaf : lexLt b a = false := by simpa using hba
      rw [insSorted, if_neg hba, List.pairwise_cons]
      refine ⟨?_, hp'⟩
      intro y hy
      rcases List.mem_cons.mp hy with rfl | hy
      · exact hbaf
      · have hyb := hb y hy
        cases hya : lexLt y a with
        | false => rfl
        | true =>
          exfalso
          rcases lexLt_connex hbaf with h2 | h2
          · have := lexLt_trans hya h2
            rw [this] at hyb
            cases hyb
          · rw [← h2] at hya
            rw [hya] at hyb
            cases hyb

theorem sortLex_pairwise (l : List (List Char)) :
    List.Pairwise (fun x y => lexLt y x = false) (sortLex l) := by
  induction l with
  | nil => exact List.Pairwise.nil
  | cons k ks ih => exact pairwise_insSorted ih

theorem perm_insSorted (a : List Char) :
    ∀ l : List (List Char), (insSorted a l).Perm (a :: l) := by
  intro l
  induction l with
  | nil => exact List.Perm.refl _
  | cons b bs ih =>
    by_cases hba : lexLt b a = true
    · rw [insSorted, if_pos hba]
      exact (List.Perm.cons b ih).trans (List.Perm.swap a b bs)
    · rw [insSorted, if_neg hba]

theorem sortLex_perm (l : List (List Char)) : (sortLex l).Perm l := by
  induction l with
  | nil => exact List.Perm.refl _
  | cons k ks ih =>
    exact (perm_insSorted k (sortLex ks)).trans (List.Perm.cons k ih)

/-!
The leftmost-window characterization of `extract4`.
-/

theorem fourDigAt_cons_succ (c : Char) (v : List Char) (i : Nat) :
    fourDigAt (c :: v) (i + 1) = fourDigAt v i := rfl

theorem fourDigAt_short {v : List Char} (h : v.length < 4) (j : Nat) :
    fourDigAt v j = false := by
  have hlen : (v.drop j).length < 4 := by
    have := List.length_drop j v
    omega
  unfold fourDigAt
  cases hd : v.drop j with
  | nil => rfl
  | cons c1 t1 =>
    cases t1 with
    | nil => rfl
    | cons c2 t2 =>
      cases t2 with
      | nil => rfl
      | cons c3 t3 =>
        cases t3 with
        | nil => rfl
        | cons c4 t4 =>
          exfalso
          rw [hd] at hlen
          simp [List.length_cons] at hlen
          omega

theorem extract4_spec : ∀ v : List Char,
    (∀ w, extract4 v = some w →
      ∃ i, fourDigAt v i = true ∧ w = (v.drop i).take 4 ∧ ∀ j < i, fourDigAt v j = false)
    ∧ (extract4 v = none → ∀ j, fourDigAt v j = false)
  | [] => by
    constructor
    · intro w hw
      simp [extract4] at hw
    · intro _ j
      exact fourDigAt_short (by simp) j
  | [c1] => by
    constructor
    · intro w hw
      simp [extract4] at hw
    · intro _ j
      exact fourDigAt_short (by simp) j
  | [c1, c2] => by
    constructor
    · intro w hw
      simp [extract4] at hw
    · intro _ j
      exact fourDigAt_short (by simp) j
  | [c1, c2, c3] => by
    constructor
    · intro w hw
      simp [extract4] at hw
    · intro _ j
      exact fourDigAt_short (by simp) j
  | c1 :: c2 :: c3 :: c4 :: rest => by
    have ih := extract4_spec (c2 :: c3 :: c4 :: rest)
    by_cases hd : (c1.isDigit && c2.isDigit && c3.isDigit && c4.isDigit) = true
    · constructor
      · intro w hw
        rw [extract4, if_pos hd] at hw
        refine ⟨0, hd, ?_, ?_⟩
        · cases hw
          rfl
        · intro j hj
          cases hj
      · intro hw
        rw [extract4, if_pos hd] at hw
        cases hw
    · have hrec : extract4 (c1 :: c2 :: c3 :: c4 :: rest) = extract4 (c2 :: c3 :: c4 :: rest) := by
        rw [extract4, if_neg hd]
      have h0 : fourDigAt (c1 :: c2 :: c3 :: c4 :: rest) 0 = false := by
        unfold fourDigAt
        simpa using hd
      constructor
      · intro w hw
        rw [hrec] at hw
        obtain ⟨i, hi, hw2, hmin⟩ := ih.1 w hw
        refine ⟨i + 1, by rw [fourDigAt_cons_succ]; exact hi, hw2, ?_⟩
        intro j hj
        cases j with
        | zero => exact h0
        | succ j2 =>
          rw [fourDigAt_cons_succ]
          exact hmin j2 (by omega)
      · intro hw
        rw [hrec] at hw
        intro j
        cases j with
        | zero => exact h0
        | succ j2 =>
          rw [fourDigAt_cons_succ]
          exact ih.2 hw j2

/-!
The `dcm.py` year post-processing only touches the `left_year` / `right_year`
columns, and rewrites them through `yearExtract`.
-/

theorem postYear_map_lookup_other (k : List Char)
    (h1 : k ≠ leftCol (s2l "year")) (h2 : k ≠ rightCol (s2l "year")) :
    ∀ cols : List (List Char × List Char),
      lookupAssoc k (cols.map (fun kv =>
        if kv.1 = leftCol (s2l "year") ∨ kv.1 = rightCol (s2l "year") then
          (kv.1, yearExtract kv.2)
        else kv)) = lookupAssoc k cols := by
  intro cols
  induction cols with
  | nil => rfl
  | cons p ps ih =>
    obtain ⟨k0, v0⟩ := p
    rw [List.map_cons]
    by_cases h0 : (k0 = leftCol (s2l "year") ∨ k0 = rightCol (s2l "year"))
    · have hk0 : ¬ k0 = k := by
        rcases h0 with rfl | rfl
        · exact fun he => h1 he.symm
        · exact fun he => h2 he.symm
      simp only [if_pos h0]
      simp only [lookupAssoc, if_neg hk0]
      exact ih
    · simp only [if_neg h0]
      by_cases hk0 : k0 = k
      · simp only [lookupAssoc, if_pos hk0]
      · simp only [lookupAssoc, if_neg hk0]
        exact ih

theorem postYear_map_lookup_year (k : List Char)
    (hk : k = leftCol (s2l "year") ∨ k = rightCol (s2l "year")) :
    ∀ cols : List (List Char × List Char),
      lookupAssoc k (cols.map (fun kv =>
        if kv.1 = leftCol (s2l "year") ∨ kv.1 = rightCol (s2l "year") then
          (kv.1, yearExtract kv.2)
        else kv)) = (lookupAssoc k cols).map yearExtract := by
  intro cols
  induction cols with
  | nil => rfl
  | cons p ps ih =>
    obtain ⟨k0, v0⟩ := p
    rw [List.map_cons]
    by_cases hk0 : k0 = k
    · subst hk0
      simp only [if_pos hk]
      simp only [lookupAssoc, if_pos rfl]
      rfl
    · by_cases h0 : (k0 = leftCol (s2l "year") ∨ k0 = rightCol (s2l "year"))
      · simp only [if_pos h0]
        simp only [lookupAssoc, if_neg hk0]
        exact ih
      · simp only [if_neg h0]
        simp only [lookupAssoc, if_neg hk0]
        exact ih

theorem postYearRow_cols (row : Row) :
    (postYearRow row).cols = row.cols.map (fun kv =>
      if kv.1 = leftCol (s2l "year") ∨ kv.1 = rightCol (s2l "year") then
        (kv.1, yearExtract kv.2)
      else kv) := rfl

theorem postYearRow_id_label (row : Row) :
    (postYearRow row).id = row.id ∧ (postYearRow row).label = row.label := ⟨rfl, rfl⟩

/-!
Tab-run splitting facts: a stripped, non-blank line never yields an empty
part, so an empty first or last field can only come from a line that is
skipped anyway.
-/

theorem mem_of_head?_eq {α : Type} {l : List α} {a : α} (h : l.head? = some a) : a ∈ l := by
  cases l with
  | nil => cases h
  | cons b bs =>
    simp only [List.head?_cons, Option.some.injEq] at h
    subst h
    exact List.mem_cons_self _ _

theorem mem_of_getLast?_eq {α : Type} {l : List α} {a : α} (h : l.getLast? = some a) :
    a ∈ l := by
  induction l with
  | nil => cases h
  | cons b bs ih =>
    cases bs with
    | nil =>
      simp only [List.getLast?_singleton, Option.some.injEq] at h
      subst h
      exact List.mem_cons_self _ _
    | cons b2 bs2 =>
      rw [List.getLast?_cons_cons] at h
      exact List.mem_cons_of_mem b (ih h)

theorem tabSplit_no_nil_aux :
    ∀ (n : Nat) (l : List Char), l.length ≤ n →
      (∀ cur : List Char, cur ≠ [] → l.getLast? ≠ some '\t' → [] ∉ tabSplitAux cur l)
      ∧ (l ≠ [] → l.getLast? ≠ some '\t' → [] ∉ tabSplitSkip l) := by
  intro n
  induction n with
  | zero =>
    intro l hl
    have hnil : l = [] := List.length_eq_zero.mp (Nat.le_zero.mp hl)
    subst hnil
    constructor
    · intro cur hcur _ hmem
      simp only [tabSplitAux, List.mem_singleton] at hmem
      exact hcur (by simpa using hmem.symm)
    · intro hne
      exact absurd rfl hne
  | succ n ih =>
    intro l hl
    cases l with
    | nil =>
      constructor
      · intro cur hcur _ hmem
        simp only [tabSplitAux, List.mem_singleton] at hmem
        exact hcur (by simpa using hmem.symm)
      · intro hne
        exact absurd rfl hne
    | cons c rest =>
      have hrest := ih rest (by
        rw [List.length_cons] at hl
        omega)
      have hlast_rest : (c :: rest).getLast? ≠ some '\t' → rest ≠ [] →
          rest.getLast? ≠ some '\t' := by
        intro hlast hne
        cases rest with
        | nil => exact absurd rfl hne
        | cons x xs =>
          rw [List.getLast?_cons_cons] at hlast
          exact hlast
      constructor
      · intro cur hcur hlast hmem
        by_cases hc : c = '\t'
        · subst hc
          simp only [tabSplitAux, if_pos rfl] at hmem
          rcases List.mem_cons.mp hmem with he | hmem
          · exact hcur (by simpa using he.symm)
          · have hne : rest ≠ [] := by
              intro hnil
              subst hnil
              exact hlast rfl
            exact hrest.2 hne (hlast_rest hlast hne) hmem
        · simp only [tabSplitAux, if_neg hc] at hmem
          have hlast2 : rest.getLast? ≠ some '\t' := by
            cases rest with
            | nil => intro he; cases he
            | cons x xs =>
              rw [List.getLast?_cons_cons] at hlast
              exact hlast
          exact hrest.1 (c :: cur) (List.cons_ne_nil c cur) hlast2 hmem
      · intro _ hlast hmem
        by_cases hc : c = '\t'
        · subst hc
          simp only [tabSplitSkip, if_pos rfl] at hmem
          have hne : rest ≠ [] := by
            intro hnil
            subst hnil
            exact hlast rfl
          exact hrest.2 hne (hlast_rest hlast hne) hmem
        · simp only [tabSplitSkip, if_neg hc] at hmem
          have hlast2 : rest.getLast? ≠ some '\t' := by
            cases rest with
            | nil => intro he; cases he
            | cons x xs =>
              rw [List.getLast?_cons_cons] at hlast
              exact hlast
          exact hrest.1 [c] (List.cons_ne_nil c []) hlast2 hmem

theorem pyStrip_head_not_space {raw : List Char} {c : Char}
    (h : (pyStrip raw).head? = some c) : isPySpace c = false := by
  unfold pyStrip at h
  have hne : dropEnd isPySpace (raw.dropWhile isPySpace) ≠ [] := by
    intro hnil
    rw [hnil] at h
    cases h
  rw [dropEnd_head? hne] at h
  exact dropWhile_head?_not h

theorem pyStrip_last_not_space {raw : List Char} {c : Char}
    (h : (pyStrip raw).getLast? = some c) : isPySpace c = false :=
  dropEnd_getLast?_not h

theorem no_nil_mem_tabSplit_pyStrip {raw : List Char} (hs : pyStrip raw ≠ []) :
    [] ∉ tabSplit (pyStrip raw) := by
  cases hps : pyStrip raw with
  | nil => exact absurd hps hs
  | cons c rest =>
    have hc : isPySpace c = false := pyStrip_head_not_space (by rw [hps]; rfl)
    have hct : ¬ c = '\t' := by
      intro he
      subst he
      cases hc
    have hlast : (c :: rest).getLast? ≠ some '\t' := by
      intro he
      have := pyStrip_last_not_space (c := '\t') (by rw [hps]; exact he)
      cases this
    unfold tabSplit
    simp only [tabSplitAux, if_neg hct]
    exact (tabSplit_no_nil_aux rest.length rest le_rfl).1 [c] (List.cons_ne_nil c []) (by
      cases rest with
      | nil => intro he; cases he
      | cons x xs =>
        rw [List.getLast?_cons_cons] at hlast
        exact hlast)

theorem splitLine_none_of_nil_part {raw : List Char}
    (h : [] ∈ tabSplit (pyStrip raw)) : splitLine raw = none := by
  by_cases hs : pyStrip raw = []
  · simp [splitLine, hs]
  · exact absurd h (no_nil_mem_tabSplit_pyStrip hs)

theorem splitLine_none_of_blank {raw : List Char} (hs : pyStrip raw = []) :
    splitLine raw = none := by
  simp [splitLine, hs]

/-!
Remaining small corollary-level helpers.
-/

theorem foldl_insert_keys_nil (ps : List (List Char × List Char)) :
    (ps.foldl (fun a kv => insertLV kv.1 kv.2 a) []).map Prod.fst =
      firstDedup (ps.map Prod.fst) := by
  rw [foldl_insert_keys]
  simp

theorem foldl_insert_lookup_nil (k : List Char) (ps : List (List Char × List Char)) :
    lookupAssoc k (ps.foldl (fun a kv => insertLV kv.1 kv.2 a) []) =
      lookupAssoc k ps.reverse := by
  rw [foldl_insert_lookup]
  show (lookupAssoc k ps.reverse).or none = _
  rw [Option.or_none]

/-!
The claims.
-/

/-- Claim C1: a bare `COL` (or `VAL`) inside a value is a field boundary only
when it starts a complete `COL <name> VAL` triple.  First conjunct: on the
concrete input the `COL` embedded in `COLORFUL` does not truncate the title
value.  Second conjunct: every boundary the scanner cuts at is a position
where the complete triple pattern `tryTriple` matches, with the match length
spanning the whole triple. -/
theorem C1_boundary_requires_full_triple :
    robust_parse_col_val (s2l "COL title VAL Has COLORFUL Cover COL year VAL 2007") =
      [(s2l "title", s2l "Has COLORFUL Cover"), (s2l "year", s2l "2007")]
    ∧ ∀ (text : List Char) (s e : Nat) (nm : List Char),
        (s, e, nm) ∈ findMatches text → tryTriple (text.drop s) = some (e - s, nm) := by
  constructor
  · decide
  · intro text s e nm h
    exact scanAux_sound text _ _ _ s e nm h

theorem C1_boundary_requires_full_triple_witness :
    tryTriple ((s2l "COL title VAL Has COLORFUL Cover COL year VAL 2007").drop 0) =
      some (13, s2l "title") :=
  C1_boundary_requires_full_triple.2 _ 0 13 (s2l "title") (by decide)

set_option maxRecDepth 4000 in
/-- Claim C2: the `i`-th `COL <name> VAL` triple binds the lowercased name to
the substring running from right after its `VAL` marker to right before the
next triple's `COL` marker (end of string for the last triple), with
whitespace runs collapsed to one space and leading/trailing pipe, semicolon,
comma, colon and whitespace stripped: the parser is exactly the dict-insertion
fold over those spec-described pairs (`specPairs`), and the concrete example
shows the cleaning. -/
theorem C2_value_spans :
    (∀ text : List Char,
      robust_parse_col_val text =
        (specPairs text).foldl (fun a kv => insertLV kv.1 kv.2 a) [])
    ∧ robust_parse_col_val (s2l "COL a VAL | x \t y ; COL b VAL 2 , ") =
        [(s2l "a", s2l "x y"), (s2l "b", s2l "2")] :=
  ⟨robust_eq_foldl_specPairs, by decide⟩

/-- Claim C3: when a field name repeats, the Field Map keeps unique keys, the
value of the last occurrence (lookup equals first lookup in the reversed pair
list), and the position of the first occurrence (the key order is the
first-occurrence dedup of the pair keys); the concrete duplicate example
shows both. -/
theorem C3_last_value_first_position :
    (∀ text : List Char,
      ((robust_parse_col_val text).map Prod.fst).Nodup
      ∧ (robust_parse_col_val text).map Prod.fst =
          firstDedup ((specPairs text).map Prod.fst)
      ∧ ∀ k, lookupAssoc k (robust_parse_col_val text) =
          lookupAssoc k (specPairs text).reverse)
    ∧ robust_parse_col_val (s2l "COL a VAL x COL b VAL y COL a VAL z") =
        [(s2l "a", s2l "z"), (s2l "b", s2l "y")] := by
  constructor
  · intro text
    have hbase := robust_eq_foldl_specPairs text
    refine ⟨?_, ?_, ?_⟩
    · rw [hbase, foldl_insert_keys_nil]
      exact firstDedup_nodup _
    · rw [hbase, foldl_insert_keys_nil]
    · intro k
      rw [hbase, foldl_insert_lookup_nil]
  · decide

/-- Claim C4: every field discovered anywhere in the corpus (either side of
any well-formed line) is in the ordered schema; every schema field appears in
a row as a `left_` and a `right_` column holding the tokenized value with
`""` default; every emitted row is built over the full ordered schema; and a
record with no markers still yields a row with `""` values. -/
theorem C4_schema_columns :
    (∀ (lines : List (List Char)) (po : Option (List (List Char)))
        (raw l r lab f : List Char), raw ∈ lines → splitLine raw = some (l, r, lab) →
        (f ∈ keysOf l ∨ f ∈ keysOf r) → f ∈ orderedFields lines po)
    ∧ (∀ (fields : List (List Char)) (rid : Nat) (lab : Int) (l r f : List Char),
        f ∈ fields →
        lookupAssoc (leftCol f) (makeRow fields rid lab l r).cols =
            some (getD f (robust_parse_col_val l))
        ∧ lookupAssoc (rightCol f) (makeRow fields rid lab l r).cols =
            some (getD f (robust_parse_col_val r)))
    ∧ (∀ (lines : List (List Char)) (po : Option (List (List Char))) (row : Row),
        row ∈ rowsOf lines po →
        ∃ (rid : Nat) (lab : Int) (l r : List Char),
          row = makeRow (orderedFields lines po) rid lab l r)
    ∧ rowsOf [s2l "no markers here\tCOL t VAL x\t0"] none =
        [⟨0, 0, [(s2l "left_t", []), (s2l "right_t", s2l "x")]⟩] := by
  refine ⟨?_, ?_, ?_, by decide⟩
  · intro lines po raw l r lab f hr hs hf
    exact (mem_orderSchema po _ f).mpr (mem_allFieldsOf hr hs hf)
  · intro fields rid lab l r f hf
    exact ⟨mkCols_lookup_left _ _ fields f hf, mkCols_lookup_right _ _ fields f hf⟩
  · intro lines po row hrow
    rw [rowsOf, pass2_eq_enum] at hrow
    obtain ⟨p, hp, rfl⟩ := List.mem_map.mp hrow
    exact ⟨p.1, p.2.1, p.2.2.1, p.2.2.2, rfl⟩

theorem C4_schema_columns_witness :
    lookupAssoc (leftCol (s2l "t")) (makeRow [s2l "t"] 0 0 [] (s2l "COL t VAL x")).cols =
      some (getD (s2l "t") (robust_parse_col_val [])) :=
  (C4_schema_columns.2.1 [s2l "t"] 0 0 [] (s2l "COL t VAL x") (s2l "t") (by decide)).1

/-- Claim C5: the output rows are exactly the lines that split into three
tab-separated parts with an integer label, in input order, enumerated with
consecutive ids starting at the initial counter (so `0..N-1` for the
pipeline); the row count is the number of lines minus malformed lines minus
invalid-label lines, and skipped lines never consume an id. -/
theorem C5_rows_exact :
    (∀ (fields : List (List Char)) (lines : List (List Char)) (rid : Nat),
        pass2 fields lines rid =
          (enumFrom rid (keptTriples lines)).map
            (fun p => makeRow fields p.1 p.2.1 p.2.2.1 p.2.2.2))
    ∧ (∀ (lines : List (List Char)) (po : Option (List (List Char))),
        (rowsOf lines po).map Row.id = List.range (keptTriples lines).length)
    ∧ (∀ lines : List (List Char),
        lines.length = (keptTriples lines).length + lines.countP isMalformed
          + lines.countP hasInvalidLabel) := by
  refine ⟨fun fields lines rid => pass2_eq_enum fields lines rid, ?_,
    length_eq_kept_add_skipped⟩
  intro lines po
  rw [rowsOf, pass2_eq_enum, List.map_map]
  have hcomp : (Row.id ∘ fun p : Nat × Int × List Char × List Char =>
      makeRow (orderedFields lines po) p.1 p.2.1 p.2.2.1 p.2.2.2) =
      Prod.fst := funext fun p => rfl
  rw [hcomp, enumFrom_map_fst, ← List.range_eq_range']

/-- Claim C6: `discover_schema` keeps exactly the discovered fields (the
preferred subsequence first, then the rest sorted): membership in the ordered
schema coincides with membership in the discovered set; without a preferred
list the result is the sorted permutation of the discovered set; and the
concrete preferred example gives `[title, year, brand]`. -/
theorem C6_discover_schema_order :
    (∀ (s : List (List Char)) (po : Option (List (List Char))) (f : List Char),
        f ∈ orderSchema po s ↔ f ∈ s)
    ∧ (∀ s : List (List Char),
        List.Pairwise (fun a b => lexLt b a = false) (orderSchema none s)
        ∧ (orderSchema none s).Perm s)
    ∧ orderSchema (some [s2l "title", s2l "year"]) [s2l "year", s2l "title", s2l "brand"] =
        [s2l "title", s2l "year", s2l "brand"] :=
  ⟨fun s po f => mem_orderSchema po s f,
    fun s => ⟨sortLex_pairwise s, sortLex_perm s⟩, by decide⟩

set_option maxRecDepth 4000 in
/-- Claim C7: the `dcm.py` post-processing rewrites exactly the `left_year`
and `right_year` columns through `yearExtract` (every other column is
untouched); `extract4` returns the leftmost window of four consecutive
digits, or nothing when no such window exists; `"circa 2007 edition"` yields
`"2007"`, `"unknown era"` yields `""`; and the end-to-end row shows it. -/
theorem C7_year_postprocess :
    (∀ row : Row,
      lookupAssoc (leftCol (s2l "year")) (postYearRow row).cols =
          (lookupAssoc (leftCol (s2l "year")) row.cols).map yearExtract
        ∧ lookupAssoc (rightCol (s2l "year")) (postYearRow row).cols =
          (lookupAssoc (rightCol (s2l "year")) row.cols).map yearExtract)
    ∧ (∀ (row : Row) (k : List Char), k ≠ leftCol (s2l "year") →
        k ≠ rightCol (s2l "year") →
        lookupAssoc k (postYearRow row).cols = lookupAssoc k row.cols)
    ∧ (∀ v w : List Char, extract4 v = some w →
        ∃ i, fourDigAt v i = true ∧ w = (v.drop i).take 4 ∧ ∀ j < i, fourDigAt v j = false)
    ∧ (∀ v : List Char, extract4 v = none → ∀ j, fourDigAt v j = false)
    ∧ yearExtract (s2l "circa 2007 edition") = s2l "2007"
    ∧ yearExtract (s2l "unknown era") = []
    ∧ rowsOfDcm [s2l "COL year VAL circa 2007 edition\tCOL year VAL unknown era\t1"] none =
        [⟨0, 1, [(s2l "left_year", s2l "2007"), (s2l "right_year", [])]⟩] := by
  refine ⟨?_, ?_, ?_, ?_, by decide, by decide, by decide⟩
  · intro row
    rw [postYearRow_cols]
    exact ⟨postYear_map_lookup_year _ (Or.inl rfl) row.cols,
      postYear_map_lookup_year _ (Or.inr rfl) row.cols⟩
  · intro row k h1 h2
    rw [postYearRow_cols]
    exact postYear_map_lookup_other k h1 h2 row.cols
  · intro v w hw
    exact (extract4_spec v).1 w hw
  · intro v hv j
    exact (extract4_spec v).2 hv j

theorem C7_year_postprocess_witness :
    lookupAssoc (s2l "left_title") (postYearRow ⟨0, 1, [(s2l "left_title", s2l "a")]⟩).cols =
      lookupAssoc (s2l "left_title") [(s2l "left_title", s2l "a")] :=
  C7_year_postprocess.2.1 ⟨0, 1, [(s2l "left_title", s2l "a")]⟩ (s2l "left_title")
    (by decide) (by decide)

/-- Claim C8 (counterexample): on the empty input the pipeline does not
produce the claimed header row `id,label,...`: with zero kept rows the
data-frame is built from an empty list of dicts, so it has no columns at all
and the header is empty. -/
theorem C8_empty_header_counterexample :
    (csvTable [] none).1 = [] ∧ (csvTable [] none).2 = []
    ∧ (csvTable [] none).1 ≠ [s2l "id", s2l "label"] :=
  ⟨rfl, rfl, by decide⟩

/-- Claim C8 (amended): whenever no line yields a kept row (in particular on
an empty input file) the pipeline still succeeds with zero data rows, but the
output has an empty header — the columns are derived from the materialized
row dicts, and there are none — rather than
`id,label,left_<f1>,right_<f1>,...`. -/
theorem C8_empty_input_amended :
    ∀ (lines : List (List Char)) (po : Option (List (List Char))),
      rowsOf lines po = [] → csvTable lines po = ([], []) := by
  intro lines po h
  unfold csvTable
  rw [h]
  rfl

theorem C8_empty_input_amended_witness : csvTable [] none = ([], []) :=
  C8_empty_input_amended [] none rfl

/-- Claim C9: schema discovery never inspects the label: any field tokenized
from either side of a well-formed line is discovered even when the label is
unparseable, while such a line itself produces no row (and consumes no id);
the concrete two-line input shows field `a` (present only on the
invalid-label line) as a `""`-valued column of the single emitted row. -/
theorem C9_schema_ignores_label :
    (∀ (lines : List (List Char)) (raw l r lab f : List Char), raw ∈ lines →
        splitLine raw = some (l, r, lab) → (f ∈ keysOf l ∨ f ∈ keysOf r) →
        f ∈ allFieldsOf lines)
    ∧ (∀ (fields : List (List Char)) (rest : List (List Char)) (rid : Nat)
        (raw : List Char), hasInvalidLabel raw = true →
        pass2 fields (raw :: rest) rid = pass2 fields rest rid)
    ∧ orderedFields [s2l "COL a VAL x\tCOL b VAL y\tnotanint",
        s2l "COL c VAL u\tCOL c VAL v\t1"] none = [s2l "a", s2l "b", s2l "c"]
    ∧ rowsOf [s2l "COL a VAL x\tCOL b VAL y\tnotanint",
        s2l "COL c VAL u\tCOL c VAL v\t1"] none =
        [⟨0, 1, [(s2l "left_a", []), (s2l "right_a", []), (s2l "left_b", []),
          (s2l "right_b", []), (s2l "left_c", s2l "u"), (s2l "right_c", s2l "v")]⟩] := by
  refine ⟨?_, ?_, by decide, by decide⟩
  · intro lines raw l r lab f hr hs hf
    exact mem_allFieldsOf hr hs hf
  · intro fields rest rid raw h
    unfold hasInvalidLabel at h
    cases hs : splitLine raw with
    | none =>
      rw [hs] at h
      cases h
    | some t =>
      obtain ⟨l, r, lab⟩ := t
      rw [hs] at h
      have h2 : (parseIntPy lab).isNone = true := h
      cases hp : parseIntPy lab with
      | none => exact pass2_cons_badlabel fields rest rid hs hp
      | some n =>
        rw [hp] at h2
        cases h2

theorem C9_schema_ignores_label_witness :
    s2l "a" ∈ allFieldsOf [s2l "COL a VAL x\tCOL b VAL y\tnotanint"] :=
  C9_schema_ignores_label.1 _ (s2l "COL a VAL x\tCOL b VAL y\tnotanint")
    (s2l "COL a VAL x") (s2l "COL b VAL y") (s2l "notanint") (s2l "a")
    (by decide) (by decide) (Or.inl (by decide))

/-- Claim C10: each line is stripped and then split on runs of tabs treated
as one delimiter: a blank line yields no row; a line whose first or last
tab-run-separated field is empty yields no row (after stripping, only a blank
line produces an empty part at all); and a line with several tabs between its
three fields is accepted and materialized. -/
theorem C10_tab_split_handling :
    (∀ raw : List Char, pyStrip raw = [] → splitLine raw = none)
    ∧ (∀ raw : List Char,
        (tabSplit (pyStrip raw)).head? = some [] ∨
          (tabSplit (pyStrip raw)).getLast? = some [] →
        splitLine raw = none)
    ∧ splitLine (s2l "COL t VAL x\t\t\tCOL t VAL y\t\t2") =
        some (s2l "COL t VAL x", s2l "COL t VAL y", s2l "2")
    ∧ rowsOf [s2l "COL t VAL x\t\t\tCOL t VAL y\t\t2"] none =
        [⟨0, 2, [(s2l "left_t", s2l "x"), (s2l "right_t", s2l "y")]⟩] := by
  refine ⟨?_, ?_, by decide, by decide⟩
  · intro raw h
    exact splitLine_none_of_blank h
  · intro raw h
    apply splitLine_none_of_nil_part
    rcases h with h | h
    · exact mem_of_head?_eq h
    · exact mem_of_getLast?_eq h

theorem C10_tab_split_handling_witness : splitLine (s2l " ") = none :=
  C10_tab_split_handling.1 (s2l " ") (by decide)

theorem C2_value_spans_witness :
    robust_parse_col_val (s2l "COL k VAL v") =
      (specPairs (s2l "COL k VAL v")).foldl (fun a kv => insertLV kv.1 kv.2 a) [] :=
  C2_value_spans.1 (s2l "COL k VAL v")

theorem C3_last_value_first_position_witness :
    lookupAssoc (s2l "a") (robust_parse_col_val (s2l "COL a VAL x COL a VAL z")) =
      lookupAssoc (s2l "a") (specPairs (s2l "COL a VAL x COL a VAL z")).reverse :=
  (C3_last_value_first_position.1 (s2l "COL a VAL x COL a VAL z")).2.2 (s2l "a")

theorem C5_rows_exact_witness :
    (rowsOf [s2l "COL t VAL x\tCOL t VAL y\t1"] none).map Row.id =
      List.range (keptTriples [s2l "COL t VAL x\tCOL t VAL y\t1"]).length :=
  C5_rows_exact.2.1 [s2l "COL t VAL x\tCOL t VAL y\t1"] none

theorem C6_discover_schema_order_witness :
    s2l "x" ∈ orderSchema none [s2l "x"] ↔ s2l "x" ∈ [s2l "x"] :=
  C6_discover_schema_order.1 [s2l "x"] none (s2l "x")

example :
    robust_parse_col_val (s2l "col K VAL v COL b VALUE x") =
      [(s2l "k", s2l "v COL b VALUE x")] := by decide

example :
    robust_parse_col_val (s2l "xCOL a VAL b .COL c VAL d") =
      [(s2l "c", s2l "d")] := by decide

example : findMatches (s2l "COL title VAL Has COLORFUL Cover COL year VAL 2007") =
    [(0, 13, s2l "title"), (33, 45, s2l "year")] := by decide
